import Mathlib

set_option maxHeartbeats 1000000

namespace PipeTools

/-!
Shallow embedding of `src/main.rs` of the `pipe_tools` repository.

Lines are modelled as `List Char`; Rust `String`/`&str` values are
modelled as `List Char` as well.  Rust's `str::find` and `str::replace`
(the latter replaces *all* leftmost non-overlapping matches, and an empty
pattern matches at every character boundary) are embedded faithfully
below as `strFind` and `rustReplace`.
-/

/-- The highlight escape sequence `"\x1B[37;101m"` from `main.rs:98`. -/
def hlOn : List Char := "\x1B[37;101m".toList

/-- The reset escape sequence `"\x1B[0m"` from `main.rs:98`. -/
def hlOff : List Char := "\x1B[0m".toList

/-- Rust `str::replace` for a non-empty pattern `p :: ps`: scan left to
right, replace each leftmost non-overlapping occurrence by `rep` and
resume just past it.  The `skip` counter holds how many characters of a
matched occurrence still have to be consumed without being emitted, which
keeps the recursion structural (and hence kernel-computable). -/
def replaceSkip (p : Char) (ps rep : List Char) : Nat → List Char → List Char
  | _, [] => []
  | Nat.succ n, _ :: rest => replaceSkip p ps rep n rest
  | 0, c :: rest =>
    if List.isPrefixOf (p :: ps) (c :: rest) then
      rep ++ replaceSkip p ps rep ps.length rest
    else
      c :: replaceSkip p ps rep 0 rest

/-- Rust `str::replace` for a non-empty pattern `p :: ps`: replace every
leftmost non-overlapping occurrence by `rep`. -/
def replaceAllNE (p : Char) (ps rep : List Char) (s : List Char) :
    List Char :=
  replaceSkip p ps rep 0 s

theorem replaceSkip_drop (p : Char) (ps rep : List Char) :
    ∀ (l : List Char) (n : Nat),
      replaceSkip p ps rep n l = replaceSkip p ps rep 0 (List.drop n l) := by
  intro l
  induction l with
  | nil => intro n; cases n <;> simp [replaceSkip]
  | cons c rest ih =>
    intro n
    cases n with
    | zero => rfl
    | succ m =>
      rw [replaceSkip, List.drop_succ_cons, ih m]

theorem replaceAllNE_nil (p : Char) (ps rep : List Char) :
    replaceAllNE p ps rep [] = [] := rfl

theorem replaceAllNE_cons (p : Char) (ps rep : List Char) (c : Char)
    (rest : List Char) :
    replaceAllNE p ps rep (c :: rest) =
      if List.isPrefixOf (p :: ps) (c :: rest) then
        rep ++ replaceAllNE p ps rep (List.drop ps.length rest)
      else
        c :: replaceAllNE p ps rep rest := by
  unfold replaceAllNE
  rw [replaceSkip]
  rw [replaceSkip_drop p ps rep rest ps.length]

/-- Helper for the empty-pattern case of Rust `str::replace`: the
replacement is inserted after every character. -/
def interleave (rep : List Char) : List Char → List Char
  | [] => []
  | c :: rest => c :: (rep ++ interleave rep rest)

/-- Rust `String::replace(word, rep)`: for an empty pattern the matcher
matches at every character boundary (so `rep` appears before, between and
after all characters); for a non-empty pattern all leftmost
non-overlapping occurrences are replaced. -/
def rustReplace (s word rep : List Char) : List Char :=
  match word with
  | [] => rep ++ interleave rep s
  | p :: ps => replaceAllNE p ps rep s

/-- Rust `str::find(pat)`: index of the first occurrence of `pat` in the
string, `none` if absent.  An empty pattern matches at index 0. -/
def strFind (pat : List Char) : List Char → Option Nat
  | [] => if List.isPrefixOf pat [] then some 0 else none
  | c :: rest =>
    if List.isPrefixOf pat (c :: rest) then some 0
    else Option.map (· + 1) (strFind pat rest)

/-- `highlight_word_in_string` from `main.rs:95-106`: if `word` is found
in `string`, replace it (Rust `replace`, i.e. every occurrence) with the
word wrapped in the highlight and reset escapes; otherwise return the
string unchanged. -/
def highlight_word_in_string (s word : List Char) : List Char :=
  match strFind word s with
  | some _ => rustReplace s word (hlOn ++ word ++ hlOff)
  | none => s

/-- The initial filter string `"stream"` from `main.rs:112`. -/
def filter_string_init : List Char := "stream".toList

/-- `StatusArea` from `main.rs:12-14`: three stored status lines. -/
structure StatusArea where
  status_lines : List String
deriving DecidableEq

/-- `StatusArea::new` from `main.rs:17-21`. -/
def StatusArea.new : StatusArea := ⟨["", "", ""]⟩

/-- `StatusArea::update` from `main.rs:23-28`: when `line < 3`, store the
text and redraw; otherwise do nothing.  The returned `Bool` records
whether `redraw` was invoked. -/
def StatusArea.update (sa : StatusArea) (line : Nat) (text : String) :
    StatusArea × Bool :=
  if line < 3 then ({ status_lines := sa.status_lines.set line text }, true)
  else (sa, false)

/-- Appending a typed character to the filter (`filter.push`, `main.rs:252`). -/
def filterAppend (f : List Char) (c : Char) : List Char := f ++ [c]

/-- Backspace on the filter (`main.rs:238-239`): remove the last
character; no-op on an empty filter. -/
def filterBackspace (f : List Char) : List Char :=
  if f = [] then f else f.dropLast

/-- Side effects a key-listener iteration can perform besides mutating
the filter (`main.rs:227-261`). -/
inductive KeyEffect where
  | writeExitNotice : KeyEffect
  | signalShutdown : KeyEffect
  | statusRedraw : KeyEffect
deriving DecidableEq

/-- Result of handling one byte in the key-listener loop: the new filter,
the effects performed, and whether the loop keeps running. -/
structure StepResult where
  filter : List Char
  effects : List KeyEffect
  keepGoing : Bool
deriving DecidableEq

/-- One byte of the key-listener state machine, `main.rs:227-261`:
`b'q'` (113) writes the exit notice, signals shutdown and breaks;
8 and 127 backspace the filter (and redraw) when it is non-empty;
printable ASCII 32..=126 appends the character and redraws;
anything else is ignored. -/
def keyListenerStep (b : Nat) (f : List Char) : StepResult :=
  if b = 113 then
    ⟨f, [KeyEffect.writeExitNotice, KeyEffect.signalShutdown], false⟩
  else if b = 8 ∨ b = 127 then
    if f = [] then ⟨f, [], true⟩
    else ⟨filterBackspace f, [KeyEffect.statusRedraw], true⟩
  else if 32 ≤ b ∧ b ≤ 126 then
    ⟨filterAppend f (Char.ofNat b), [KeyEffect.statusRedraw], true⟩
  else
    ⟨f, [], true⟩

/-- Outcome of the non-blocking `read` on `/dev/tty` (`main.rs:225`). -/
inductive ReadResult where
  | okByte (b : Nat)
  | okZero
  | wouldBlock
  | otherError
deriving DecidableEq

/-- Effects of one whole key-listener loop iteration. -/
inductive IterEffect where
  | sleepMs (n : Nat)
  | key (e : KeyEffect)
deriving DecidableEq

/-- One iteration of the key-listener loop, `main.rs:224-271`:
`Ok(1)` dispatches on the byte; the `WouldBlock` arm (`main.rs:263-266`)
has an empty body (the `thread::sleep` there is commented out), so the
loop just continues; other errors and `Ok(0)` break the loop. -/
def listenerIteration (r : ReadResult) (f : List Char) :
    List Char × List IterEffect × Bool :=
  match r with
  | ReadResult.okByte b =>
    let s := keyListenerStep b f
    (s.filter, s.effects.map IterEffect.key, s.keepGoing)
  | ReadResult.wouldBlock => (f, [], true)
  | ReadResult.otherError => (f, [], false)
  | ReadResult.okZero => (f, [], false)

/-- Terminal-restoring cleanup actions appearing in `main.rs`. -/
inductive CleanupAction where
  | resetScrollRegion
  | restoreTerminalMode
deriving DecidableEq

/-- What the main control flow runs after `quit_rx.recv()` unblocks,
`main.rs:277-280`: only `reset_scroll_region()` (on stdout), then
`Ok(())` is returned and the process exits. -/
def mainCleanupAfterUnblock : List CleanupAction :=
  [CleanupAction.resetScrollRegion]

/-- The cleanup the key-listener thread runs after its loop exits,
`main.rs:273-274`: restore the original termios attributes. -/
def keyListenerThreadCleanup : List CleanupAction :=
  [CleanupAction.restoreTerminalMode]

/-- The pipe-reader thread, `main.rs:163-172`: forward each successfully
read line (`if let Ok(line)`) to the channel in arrival order; failed
reads are skipped. -/
def pipeReaderForward : List (Option (List Char)) → List (List Char)
  | [] => []
  | some l :: rest => l :: pipeReaderForward rest
  | none :: rest => pipeReaderForward rest

/-- The printing consumer loop, `main.rs:178-189`: drain the channel in
FIFO order, highlight each line with the current filter, write it; on a
failed write (`writeln!(..).is_err()`) break out of the loop silently.
The result is the list of lines actually written; the function is total
and has no error outcome, mirroring that the loop never propagates the
write error. -/
def printerLoop (canWrite : List Char → Bool) (word : List Char) :
    List (List Char) → List (List Char)
  | [] => []
  | l :: ls =>
    if canWrite (highlight_word_in_string l word) then
      highlight_word_in_string l word :: printerLoop canWrite word ls
    else
      []

/-!
Specification-side definitions used to state the amended form of claim
C1: splitting a line on all leftmost non-overlapping occurrences of the
term, and re-joining the pieces with a separator.
-/

/-- Modelled from the spec side for comparison: split a line at every
leftmost non-overlapping occurrence of the non-empty term `p :: ps`.
Returns the first segment and the remaining segments. -/
def splitOnTerm (p : Char) (ps : List Char) :
    List Char → List Char × List (List Char)
  | [] => ([], [])
  | c :: rest =>
    if List.isPrefixOf (p :: ps) (c :: rest) then
      ([], (splitOnTerm p ps (List.drop ps.length rest)).1 ::
            (splitOnTerm p ps (List.drop ps.length rest)).2)
    else
      ((c :: (splitOnTerm p ps rest).1), (splitOnTerm p ps rest).2)
termination_by l => l.length
decreasing_by
  all_goals simp only [List.length_drop, List.length_cons]
  all_goals omega

/-- Join segments, inserting `sep` between consecutive segments. -/
def joinWith (sep g : List Char) : List (List Char) → List Char
  | [] => g
  | h :: t => g ++ sep ++ joinWith sep h t

/-! ### Helper lemmas -/

theorem joinWith_cons_head (sep : List Char) (c : Char) (g : List Char)
    (gs : List (List Char)) :
    joinWith sep (c :: g) gs = c :: joinWith sep g gs := by
  cases gs <;> simp [joinWith]

theorem replaceAllNE_eq_joinWith_aux (p : Char) (ps rep : List Char) :
    ∀ (n : Nat) (s : List Char), s.length ≤ n →
      replaceAllNE p ps rep s =
        joinWith rep (splitOnTerm p ps s).1 (splitOnTerm p ps s).2 := by
  intro n
  induction n with
  | zero =>
    intro s hs
    have hnil : s = [] := List.eq_nil_of_length_eq_zero (Nat.le_zero.mp hs)
    subst hnil
    simp [replaceAllNE_nil, splitOnTerm, joinWith]
  | succ n ih =>
    intro s hs
    match s with
    | [] => simp [replaceAllNE_nil, splitOnTerm, joinWith]
    | c :: rest =>
      have hrest : rest.length ≤ n := by
        simp only [List.length_cons] at hs
        omega
      by_cases h : List.isPrefixOf (p :: ps) (c :: rest)
      · rw [replaceAllNE_cons, splitOnTerm]
        simp only [h, if_true, joinWith]
        have hd : (List.drop ps.length rest).length ≤ n := by
          simp only [List.length_drop]
          omega
        rw [ih (List.drop ps.length rest) hd]
        simp
      · rw [replaceAllNE_cons, splitOnTerm]
        simp only [h, if_false, Bool.false_eq_true, ite_false]
        rw [joinWith_cons_head, ih rest hrest]

theorem replaceAllNE_eq_joinWith (p : Char) (ps rep s : List Char) :
    replaceAllNE p ps rep s =
      joinWith rep (splitOnTerm p ps s).1 (splitOnTerm p ps s).2 :=
  replaceAllNE_eq_joinWith_aux p ps rep s.length s (Nat.le_refl _)

theorem splitOnTerm_of_find_none (p : Char) (ps : List Char) :
    ∀ (s : List Char), strFind (p :: ps) s = none →
      splitOnTerm p ps s = (s, []) := by
  intro s
  induction s with
  | nil => intro _; simp [splitOnTerm]
  | cons c rest ih =>
    intro h
    rw [strFind] at h
    by_cases hp : List.isPrefixOf (p :: ps) (c :: rest)
    · simp [hp] at h
    · simp only [hp, if_false, Bool.false_eq_true, ite_false,
        Option.map_eq_none'] at h
      rw [splitOnTerm]
      simp [hp, ih h]

theorem interleave_length_ge (rep : List Char) :
    ∀ s : List Char, s.length ≤ (interleave rep s).length := by
  intro s
  induction s with
  | nil => simp [interleave]
  | cons c rest ih =>
    simp only [interleave, List.length_cons, List.length_append]
    omega

theorem highlight_empty_word_ne (s : List Char) :
    highlight_word_in_string s [] ≠ s := by
  have hfind : strFind [] s = some 0 := by
    cases s <;> simp [strFind, List.isPrefixOf]
  simp only [highlight_word_in_string, hfind, rustReplace]
  intro hEq
  have hlen := congrArg List.length hEq
  have h9 : hlOn.length = 9 := by decide
  have h4 : hlOff.length = 4 := by decide
  simp only [List.length_append, List.length_nil, h9, h4] at hlen
  have h2 := interleave_length_ge (hlOn ++ [] ++ hlOff) s
  omega

theorem replaceAllNE_length_ge (p : Char) (ps rep : List Char)
    (hrep : ps.length + 1 ≤ rep.length) :
    ∀ (n : Nat) (s : List Char), s.length ≤ n →
      s.length ≤ (replaceAllNE p ps rep s).length := by
  intro n
  induction n with
  | zero =>
    intro s hs
    have hnil : s = [] := List.eq_nil_of_length_eq_zero (Nat.le_zero.mp hs)
    subst hnil
    simp [replaceAllNE_nil]
  | succ n ih =>
    intro s hs
    match s with
    | [] => simp [replaceAllNE_nil]
    | c :: rest =>
      have hrest : rest.length ≤ n := by
        simp only [List.length_cons] at hs
        omega
      by_cases h : List.isPrefixOf (p :: ps) (c :: rest)
      · rw [replaceAllNE_cons]
        simp only [h, if_true, List.length_append, List.length_cons]
        have hd := ih (List.drop ps.length rest)
          (by simp only [List.length_drop]; omega)
        simp only [List.length_drop] at hd
        omega
      · rw [replaceAllNE_cons]
        simp only [h, if_false, Bool.false_eq_true, ite_false,
          List.length_cons]
        have := ih rest hrest
        omega

theorem replaceAllNE_length_gt (p : Char) (ps rep : List Char)
    (hrep : ps.length + 2 ≤ rep.length) :
    ∀ (n : Nat) (s : List Char), s.length ≤ n →
      (strFind (p :: ps) s).isSome = true →
      s.length < (replaceAllNE p ps rep s).length := by
  intro n
  induction n with
  | zero =>
    intro s hs hfind
    have hnil : s = [] := List.eq_nil_of_length_eq_zero (Nat.le_zero.mp hs)
    subst hnil
    simp [strFind, List.isPrefixOf] at hfind
  | succ n ih =>
    intro s hs hfind
    match s with
    | [] => simp [strFind, List.isPrefixOf] at hfind
    | c :: rest =>
      have hrest : rest.length ≤ n := by
        simp only [List.length_cons] at hs
        omega
      by_cases h : List.isPrefixOf (p :: ps) (c :: rest)
      · rw [replaceAllNE_cons]
        simp only [h, if_true, List.length_append, List.length_cons]
        have hd := replaceAllNE_length_ge p ps rep (by omega)
          (List.drop ps.length rest).length (List.drop ps.length rest)
          (Nat.le_refl _)
        simp only [List.length_drop] at hd
        omega
      · rw [strFind] at hfind
        simp only [h, if_false, Bool.false_eq_true, ite_false] at hfind
        have hfind' : (strFind (p :: ps) rest).isSome = true := by
          cases hr : strFind (p :: ps) rest with
          | none => rw [hr] at hfind; simp at hfind
          | some v => simp
        rw [replaceAllNE_cons]
        simp only [h, if_false, Bool.false_eq_true, ite_false,
          List.length_cons]
        have := ih rest hrest hfind'
        omega

theorem highlight_ne_of_found (p : Char) (ps s : List Char)
    (hfind : (strFind (p :: ps) s).isSome = true) :
    highlight_word_in_string s (p :: ps) ≠ s := by
  obtain ⟨i, hi⟩ := Option.isSome_iff_exists.mp hfind
  simp only [highlight_word_in_string, hi, rustReplace]
  have h9 : hlOn.length = 9 := by decide
  have h4 : hlOff.length = 4 := by decide
  have hrep : ps.length + 2 ≤ (hlOn ++ (p :: ps) ++ hlOff).length := by
    simp only [List.length_append, List.length_cons, h9, h4]
    omega
  have hlt := replaceAllNE_length_gt p ps (hlOn ++ (p :: ps) ++ hlOff) hrep
    s.length s (Nat.le_refl _) hfind
  intro hEq
  rw [hEq] at hlt
  omega

/-! ### Claim theorems -/

/-- Claim C1, counterexample: for the line `"aa"` and the term `"a"`, the
printed line is not `"aa"` with only the first occurrence wrapped (the
claim's prediction); both occurrences are wrapped, because Rust's
`String::replace` replaces every occurrence. -/
theorem C1_counterexample :
    highlight_word_in_string ['a', 'a'] ['a'] ≠
      hlOn ++ ['a'] ++ hlOff ++ ['a'] ∧
    highlight_word_in_string ['a', 'a'] ['a'] =
      hlOn ++ ['a'] ++ hlOff ++ (hlOn ++ ['a'] ++ hlOff) := by
  constructor
  · decide
  · decide

/-- Claim C1 (amended): for every line `s` and every non-empty term
`p :: ps`, the printed line equals the segments of `s` obtained by
splitting on the leftmost non-overlapping occurrences of the term,
re-joined with the term wrapped in the highlight and reset escape
sequences — i.e. *every* occurrence of the term is wrapped, not only the
first.  (When the term does not occur, there is a single segment and the
line is unchanged.) -/
theorem C1_highlight_wraps_every_occurrence (p : Char) (ps s : List Char) :
    highlight_word_in_string s (p :: ps) =
      joinWith (hlOn ++ (p :: ps) ++ hlOff)
        (splitOnTerm p ps s).1 (splitOnTerm p ps s).2 := by
  cases hf : strFind (p :: ps) s with
  | none =>
    simp only [highlight_word_in_string, hf]
    rw [splitOnTerm_of_find_none p ps s hf]
    simp [joinWith]
  | some i =>
    simp only [highlight_word_in_string, hf, rustReplace]
    exact replaceAllNE_eq_joinWith p ps (hlOn ++ (p :: ps) ++ hlOff) s

/-- Claim C2, counterexample: for the empty filter term, the line `"a"`
is *not* returned unchanged: `str::find` of the empty pattern succeeds at
index 0, and `String::replace` of the empty pattern inserts the
highlight-reset pair at every character boundary. -/
theorem C2_counterexample :
    highlight_word_in_string ['a'] [] ≠ ['a'] := by
  decide

/-- Claim C2 (amended): if the term is non-empty and does not occur in
the line, the highlighting step returns the line unchanged; if the term
is the empty string the result is never the unchanged line (the
highlight and reset escapes are inserted at every character boundary). -/
theorem C2_no_match_passthrough (s word : List Char) :
    (word ≠ [] → strFind word s = none →
      highlight_word_in_string s word = s) ∧
    (word = [] → highlight_word_in_string s word ≠ s) := by
  constructor
  · intro _ hf
    simp [highlight_word_in_string, hf]
  · intro hw
    subst hw
    exact highlight_empty_word_ne s

/-- Witness for the amended claim C2 at concrete inputs. -/
theorem C2_no_match_passthrough_witness :
    highlight_word_in_string ['a', 'b'] ['z'] = ['a', 'b'] ∧
    highlight_word_in_string ['a', 'b'] [] ≠ ['a', 'b'] :=
  ⟨(C2_no_match_passthrough ['a', 'b'] ['z']).1 (by decide) (by decide),
   (C2_no_match_passthrough ['a', 'b'] []).2 rfl⟩

/-- Claim C3 (refuted by the code): after `quit_rx.recv()` unblocks
(`main.rs:278`), the main control flow only resets the scroll region
(`main.rs:279`) — it does not restore the terminal mode.  The termios
restoration exists solely in the key-listener thread's post-loop cleanup
(`main.rs:274`), which never runs on a pipe-EOF shutdown because that
thread is still looping when the process exits. -/
theorem C3_mode_restore_not_in_main :
    CleanupAction.restoreTerminalMode ∉ mainCleanupAfterUnblock ∧
    CleanupAction.resetScrollRegion ∈ mainCleanupAfterUnblock ∧
    CleanupAction.restoreTerminalMode ∈ keyListenerThreadCleanup := by
  decide

/-- Claim C4 (refuted by the code): in a key-listener iteration whose
read returns would-block, the loop performs no effect at all — in
particular no sleep (the `thread::sleep` in that arm, `main.rs:265`, is
commented out) — and immediately continues, i.e. it spins without any
yield. -/
theorem C4_would_block_spins (f : List Char) :
    listenerIteration ReadResult.wouldBlock f = (f, [], true) := rfl

/-- Claim C5: the key-listener byte dispatch (`main.rs:227-261`):
`'q'` (113) writes the exit notice, signals shutdown and stops the loop;
8 or 127 backspaces the filter when non-empty (no-op on an empty
filter); printable ASCII (32..=126, other than `'q'`) is appended to the
filter with a status redraw; every other byte changes nothing. -/
theorem C5_key_listener_cases (b : Nat) (f : List Char) :
    (b = 113 →
      keyListenerStep b f =
        ⟨f, [KeyEffect.writeExitNotice, KeyEffect.signalShutdown], false⟩) ∧
    ((b = 8 ∨ b = 127) →
      (f ≠ [] →
        keyListenerStep b f =
          ⟨filterBackspace f, [KeyEffect.statusRedraw], true⟩) ∧
      (f = [] → keyListenerStep b f = ⟨f, [], true⟩)) ∧
    (32 ≤ b → b ≤ 126 → b ≠ 113 →
      keyListenerStep b f =
        ⟨filterAppend f (Char.ofNat b), [KeyEffect.statusRedraw], true⟩) ∧
    (b ≠ 113 → b ≠ 8 → b ≠ 127 → ¬(32 ≤ b ∧ b ≤ 126) →
      keyListenerStep b f = ⟨f, [], true⟩) := by
  refine ⟨?_, ?_, ?_, ?_⟩
  · intro hb
    subst hb
    rfl
  · intro hb
    constructor
    · intro hf
      rcases hb with rfl | rfl <;> simp [keyListenerStep, hf]
    · intro hf
      subst hf
      rcases hb with rfl | rfl <;> simp [keyListenerStep]
  · intro h1 h2 h3
    have hne : ¬(b = 8 ∨ b = 127) := by omega
    simp [keyListenerStep, h3, hne, h1, h2]
  · intro h1 h2 h3 h4
    have hne : ¬(b = 8 ∨ b = 127) := by omega
    simp [keyListenerStep, h1, hne, h4]

/-- Witness for claim C5: one concrete instance of each byte class. -/
theorem C5_key_listener_cases_witness :
    keyListenerStep 113 ['a'] =
      ⟨['a'], [KeyEffect.writeExitNotice, KeyEffect.signalShutdown], false⟩ ∧
    keyListenerStep 8 ['a', 'b'] =
      ⟨filterBackspace ['a', 'b'], [KeyEffect.statusRedraw], true⟩ ∧
    keyListenerStep 127 [] = ⟨[], [], true⟩ ∧
    keyListenerStep 97 ['a'] =
      ⟨filterAppend ['a'] (Char.ofNat 97), [KeyEffect.statusRedraw], true⟩ ∧
    keyListenerStep 0 ['a'] = ⟨['a'], [], true⟩ :=
  ⟨(C5_key_listener_cases 113 ['a']).1 rfl,
   ((C5_key_listener_cases 8 ['a', 'b']).2.1 (Or.inl rfl)).1 (by decide),
   ((C5_key_listener_cases 127 ([] : List Char)).2.1 (Or.inr rfl)).2 rfl,
   (C5_key_listener_cases 97 ['a']).2.2.1 (by decide) (by decide) (by decide),
   (C5_key_listener_cases 0 ['a']).2.2.2 (by decide) (by decide) (by decide)
     (by decide)⟩

/-- Claim C6: appending `'a'`, `'b'`, `'c'` to an empty filter and then
applying three backspaces yields the empty filter again; appending
`"abc"` and one backspace yields `"ab"`; backspace on an empty filter is
a no-op. -/
theorem C6_filter_edit_replay :
    filterBackspace (filterBackspace (filterBackspace
      (filterAppend (filterAppend (filterAppend [] 'a') 'b') 'c'))) = [] ∧
    filterBackspace
      (filterAppend (filterAppend (filterAppend [] 'a') 'b') 'c') =
      ['a', 'b'] ∧
    filterBackspace [] = [] := by
  refine ⟨?_, ?_, ?_⟩ <;> decide

/-- Claim C7: if the write of the highlighted form of line `l` fails
(e.g. broken pipe), the printing consumer emits exactly the highlighted
lines before `l` and then stops — nothing from `l` onwards is written,
and the loop ends normally (the embedding's return type has no error
outcome, mirroring that the code breaks out silently on `is_err()`). -/
theorem C7_write_error_stops_silently (canWrite : List Char → Bool)
    (word l : List Char) (pre post : List (List Char))
    (hpre : ∀ x ∈ pre, canWrite (highlight_word_in_string x word) = true)
    (hfail : canWrite (highlight_word_in_string l word) = false) :
    printerLoop canWrite word (pre ++ l :: post) =
      pre.map (fun x => highlight_word_in_string x word) := by
  induction pre with
  | nil => simp [printerLoop, hfail]
  | cons x xs ih =>
    have hx := hpre x (by simp)
    simp only [List.cons_append, printerLoop, hx, if_true, List.map_cons,
      List.append_eq]
    rw [ih (fun y hy => hpre y (by simp [hy]))]

/-- Witness for claim C7 at a concrete broken-pipe scenario: the writer
fails on `"b"`, so only the line before it is emitted. -/
theorem C7_write_error_stops_silently_witness :
    printerLoop (fun s => !(s == ['b'])) ['z'] ([['a']] ++ ['b'] :: [['c']]) =
      [['a']].map (fun x => highlight_word_in_string x ['z']) :=
  C7_write_error_stops_silently (fun s => !(s == ['b'])) ['z'] ['b']
    [['a']] [['c']] (by decide) (by decide)

/-- Claim C8: when every line arrives intact from the pipe and every
write succeeds (and no shutdown interrupts), the emitted output is
exactly the highlighted version of each input line, in the same order,
with no line dropped or duplicated. -/
theorem C8_order_preserved (word : List Char) (ls : List (List Char)) :
    printerLoop (fun _ => true) word (pipeReaderForward (ls.map some)) =
      ls.map (fun l => highlight_word_in_string l word) := by
  induction ls with
  | nil => simp [pipeReaderForward, printerLoop]
  | cons l ls ih =>
    simp only [List.map_cons, pipeReaderForward, printerLoop, if_true, ih]

/-- Claim C9: the filter starts as the non-empty default `"stream"`
(`main.rs:112`), so before any keystroke every line containing
`"stream"` is changed by the highlighting step, not passed through. -/
theorem C9_default_filter_highlights (L : List Char)
    (hocc : (strFind filter_string_init L).isSome = true) :
    filter_string_init = "stream".toList ∧
    filter_string_init ≠ [] ∧
    highlight_word_in_string L filter_string_init ≠ L := by
  refine ⟨rfl, by decide, ?_⟩
  have hdef : filter_string_init = 's' :: "tream".toList := rfl
  rw [hdef] at hocc ⊢
  exact highlight_ne_of_found 's' "tream".toList L hocc

/-- Witness for claim C9: the default filter does occur in
`"a stream"`, and that line is changed by highlighting. -/
theorem C9_default_filter_highlights_witness :
    (strFind filter_string_init "a stream".toList).isSome = true ∧
    highlight_word_in_string "a stream".toList filter_string_init ≠
      "a stream".toList :=
  ⟨by decide,
   (C9_default_filter_highlights "a stream".toList (by decide)).2.2⟩

/-- Claim C10: `StatusArea::update` with a line index `≥ 3` is a total
no-op: the stored status lines are unchanged, no redraw is triggered,
and (being behind the `line < 3` guard) no out-of-bounds indexing is
ever executed. -/
theorem C10_update_out_of_range (sa : StatusArea) (i : Nat) (t : String)
    (h : 3 ≤ i) :
    StatusArea.update sa i t = (sa, false) := by
  unfold StatusArea.update
  rw [if_neg (by omega)]

/-- Witness for claim C10 at the smallest out-of-range index. -/
theorem C10_update_out_of_range_witness :
    StatusArea.update StatusArea.new 3 "x" = (StatusArea.new, false) :=
  C10_update_out_of_range StatusArea.new 3 "x" (by omega)

end PipeTools
